import Mathlib

/-!
Verification of the graphez connectivity-to-graph pipeline.

The Python source (src/connectivity.py, src/metrics.py, src/plotting.py) is
embedded shallowly: numpy arrays of floats become lists of rationals, the
matrix is `List (List ℚ)` in row-major order, a fallible operation (a numpy
`IndexError`, `ValueError`, or `StopIteration`) returns `none`, and Python's
`int()` truncation and negative list indexing are modelled explicitly.
-/

namespace Graphez

/-- A 2-D array in row-major order, entries rational (floats in the source). -/
abbrev Mat := List (List ℚ)

/-- Entry read `m[i][j]` with numpy's value at in-range indices; out-of-range
reads default to `0` (the call sites proved about only read in range). -/
def ent (m : Mat) (i j : Nat) : ℚ := (m.getD i []).getD j 0

/-- In-place style assignment `m[i][j] = x` (a no-op out of range, which the
call sites never hit: the loop indices stay below the allocated size). -/
def setEntry (m : Mat) (i j : Nat) (x : ℚ) : Mat :=
  m.set i ((m.getD i []).set j x)

/-- `np.zeros((n, n))`. -/
def zeros (n : Nat) : Mat := List.replicate n (List.replicate n 0)

/-- `m` has `n` rows, each of length `n`. -/
def IsSquareN (m : Mat) (n : Nat) : Prop :=
  m.length = n ∧ ∀ k, k < n → (m.getD k []).length = n

instance (m : Mat) (n : Nat) : Decidable (IsSquareN m n) := by
  unfold IsSquareN; infer_instance

/-- A numpy ndarray of dimension at most 2 (the shapes the pipeline sees). -/
inductive NDArray where
  | scalar0 (x : ℚ)
  | one (v : List ℚ)
  | two (m : Mat)
deriving DecidableEq, Repr

/-- `ndarray.squeeze()`: drop singleton dimensions.  A length-1 vector becomes
a 0-d scalar; a `1×1` matrix becomes a scalar; a `1×k` or `k×1` matrix
becomes a vector; anything else is unchanged. -/
def squeeze : NDArray → NDArray
  | .scalar0 x => .scalar0 x
  | .one v => if v.length = 1 then .scalar0 (v.getD 0 0) else .one v
  | .two m =>
    if m.length = 1 ∧ (m.headD []).length = 1 then .scalar0 ((m.headD []).getD 0 0)
    else if m.length = 1 then .one (m.headD [])
    else if (m.headD []).length = 1 then .one (m.map (fun row => row.getD 0 0))
    else .two m

/-- The pairs `(i, j)` walked by the reconstruction loop of
`prepare_connectivity_matrix`: `for i in range(n): for j in range(i)`,
in that exact nested order. -/
def lowerPairs (n : Nat) : List (Nat × Nat) :=
  (List.range n).flatMap (fun i => (List.range i).map (fun j => (i, j)))

/-- The body of the reconstruction loop: for each pair `(i, j)` in order, read
`con_matrix[idx]` (a numpy `IndexError`, hence `none`, when `idx` is past the
end), assign it to both `full_matrix[i][j]` and `full_matrix[j][i]`, and
increment `idx`. -/
def fillPairs (v : List ℚ) : List (Nat × Nat) → Nat → Mat → Option Mat
  | [], _, m => some m
  | (i, j) :: rest, idx, m =>
    match v[idx]? with
    | none => none
    | some x => fillPairs v rest (idx + 1) (setEntry (setEntry m i j x) j i x)

/-- The symmetric double assignment of one loop iteration:
`full_matrix[i, j] = x; full_matrix[j, i] = x`. -/
def set2 (m : Mat) (i j : Nat) (x : ℚ) : Mat :=
  setEntry (setEntry m i j x) j i x

/-- `fillPairs` with the consumed prefix of the vector dropped: the loop
reads the vector element at the running index, which is the head of what
remains. -/
def fillC : List ℚ → List (Nat × Nat) → Mat → Option Mat
  | _, [], m => some m
  | [], _ :: _, _ => none
  | x :: v, (i, j) :: rest, m => fillC v rest (set2 m i j x)

/-- `prepare_connectivity_matrix(con_matrix, n_channels)` from
src/connectivity.py: squeeze the input; if the squeezed input is
1-dimensional, reconstruct the full symmetric matrix from the
lower-triangular vector; otherwise return the squeezed input unchanged. -/
def prepare_connectivity_matrix (con_matrix : NDArray) (n_channels : Nat) :
    Option NDArray :=
  match squeeze con_matrix with
  | .one v => (fillPairs v (lowerPairs n_channels) 0 (zeros n_channels)).map NDArray.two
  | s => some s

/-- The strict lower triangle of `m`, read in the same row-major order
(`i` from `0` to `n-1`, `j` from `0` to `i-1`) that the reconstruction
loop consumes. -/
def lowerTriangle (m : Mat) (n : Nat) : List ℚ :=
  (lowerPairs n).map (fun p => ent m p.1 p.2)

/-- Python's `int()` applied to a float: truncation toward zero (for a
rational in lowest terms, the truncating division of numerator by
denominator). -/
def pyInt (q : ℚ) : Int := q.num.tdiv q.den

/-- Python list indexing `l[i]`: a negative index counts from the end;
out of range either way raises `IndexError` (`none`). -/
def pyIndex (l : List ℚ) (i : Int) : Option ℚ :=
  if 0 ≤ i then l[i.toNat]?
  else if (-i).toNat ≤ l.length then l[l.length - (-i).toNat]? else none

/-- The pairs `(i, j)` walked by the collection loop of
`calculate_connectivity_threshold`:
`for i in range(n): for j in range(i + 1, n)`, in that order. -/
def upperPairs (n : Nat) : List (Nat × Nat) :=
  (List.range n).flatMap (fun i => (List.range' (i + 1) (n - (i + 1))).map (fun j => (i, j)))

/-- Run a fallible step over a list in order, stopping at the first failure
(the shape of a Python `for` loop whose body may raise). -/
def traverseOpt (g : α → Option β) : List α → Option (List β)
  | [] => some []
  | x :: xs => do
    let y ← g x
    let ys ← traverseOpt g xs
    pure (y :: ys)

/-- The `connection_strengths` list: `abs(filtered_con[i, j])` for every upper
pair, where a read outside the array raises `IndexError` (`none`). -/
def collectStrengths (filtered_con : Mat) (n : Nat) : Option (List ℚ) :=
  traverseOpt
    (fun p => (filtered_con[p.1]?.bind (fun row => row[p.2]?)).map (fun x => |x|))
    (upperPairs n)

/-- `list.sort(reverse=True)`: stable descending sort (any stable descending
sort is extensionally the same function on value lists). -/
def descSort (l : List ℚ) : List ℚ := List.insertionSort (· ≥ ·) l

/-- `calculate_connectivity_threshold(filtered_con, threshold, valid_channels)`
from src/connectivity.py: collect `abs(filtered_con[i, j])` over the upper
triangle of indices `0 .. len(valid_channels) - 1`; if any were collected,
sort descending and return the entry at
`min(int(threshold * count), count - 1)` (Python indexing, so a negative
cutoff counts from the end); otherwise return `0`. -/
def calculate_connectivity_threshold (filtered_con : Mat) (threshold : ℚ)
    (valid_channels : List String) : Option ℚ := do
  let connection_strengths ← collectStrengths filtered_con valid_channels.length
  if connection_strengths.isEmpty then
    pure 0
  else
    let cutoff_index : Int :=
      min (pyInt (threshold * connection_strengths.length))
        ((connection_strengths.length : Int) - 1)
    pyIndex (descSort connection_strengths) cutoff_index

/-- `con_matrix[np.ix_(idxs, idxs)]` as used by `_plot_connectivity_map`
(src/plotting.py): the submatrix at rows and columns `idxs` (the caller
builds `idxs` as valid positions into `con_matrix`, so every read is in
range). -/
def submatrix (m : Mat) (idxs : List Nat) : Mat :=
  idxs.map (fun r => idxs.map (fun c => ent m r c))

/-- The indices `valid_indices` of `_plot_connectivity_map`: positions of the
channels that appear in the electrode layout, in channel order. -/
def selectedIndices (ch_names : List String) (layout_keys : List String) : List Nat :=
  (List.range ch_names.length).filter (fun i => ch_names.getD i "" ∈ layout_keys)

/-- A dominance ratio: a finite float, or `np.inf`. -/
inductive PyRatio where
  | inf
  | val (q : ℚ)
deriving DecidableEq, Repr

/-- The dictionary returned by `analyze_hemisphere_epileptogenic_zone`. -/
structure HemisphereAnalysis where
  dominant_hemisphere : String
  dominance_ratio : PyRatio
  left_mean : ℚ
  right_mean : ℚ
  midline_mean : ℚ
  most_active_channel : String
  most_active_hemisphere : String
  left_channels : List String
  right_channels : List String
  midline_channels : List String
  metric_values : List ℚ
deriving DecidableEq, Repr

/-- The fixed 10-20 montage grouping of src/metrics.py. -/
def left_hemisphere : List String := ["C3", "F3", "F7", "Fp1", "P3", "T3", "T5"]

/-- Right-hemisphere channels of the fixed grouping. -/
def right_hemisphere : List String := ["C4", "F4", "F8", "Fp2", "P4", "T4", "T6"]

/-- Midline/bilateral channels of the fixed grouping. -/
def midline : List String := ["Cz", "Fpz", "Pz", "O1", "O2"]

/-- `np.mean` of a list (sum over length; the call sites guard emptiness). -/
def listMean (l : List ℚ) : ℚ := l.sum / l.length

/-- Scan for `np.argmax`: best value, its index, and the index of the current
element; a later equal value never replaces the current best, so the first
maximum wins. -/
def argmaxAux : ℚ → Nat → Nat → List ℚ → Nat
  | _, bestIdx, _, [] => bestIdx
  | best, bestIdx, cur, x :: xs =>
    if best < x then argmaxAux x cur (cur + 1) xs
    else argmaxAux best bestIdx (cur + 1) xs

/-- `np.argmax`: index of the first maximal entry; `ValueError` (`none`) on an
empty array. -/
def pyArgmax : List ℚ → Option Nat
  | [] => none
  | x :: xs => some (argmaxAux x 0 1 xs)

/-- `compute_degree_strength(con, n_channels)` from src/metrics.py: prepare
the matrix, build `nx.from_numpy_array` (one edge per nonzero entry of a
square matrix; anything non-square or non-2-D raises, hence `none`), and
take each node's weighted degree — the sum of incident edge weights, a
self-loop counted twice. -/
def compute_degree_strength (con : NDArray) (n_channels : Nat) :
    Option (List ℚ) := do
  let r ← prepare_connectivity_matrix con n_channels
  match r with
  | .two m =>
    if m.all (fun row => decide (row.length = m.length)) then
      some ((List.range m.length).map (fun i =>
        ((List.range m.length).map (fun j =>
          if ent m i j ≠ 0 then (if i = j then 2 * ent m i j else ent m i j)
          else 0)).sum))
    else none
  | _ => none

/-- The index comprehension `[i for i, ch in enumerate(ch_names) if ch in
group]` used for each hemisphere group. -/
def hemiIdx (ch_names : List String) (group : List String) : List Nat :=
  (List.range ch_names.length).filter (fun i => ch_names.getD i "" ∈ group)

/-- `np.mean(values) if len(values) > 0 else 0`. -/
def groupMean (vals : List ℚ) : ℚ :=
  if vals.length > 0 then listMean vals else 0

/-- The dominance branch of `analyze_hemisphere_epileptogenic_zone`: the
label and the ratio (`np.inf` when the smaller mean is not positive). -/
def dominanceDecision (left_mean right_mean : ℚ) : String × PyRatio :=
  if right_mean < left_mean then
    ("Left", if 0 < right_mean then PyRatio.val (left_mean / right_mean)
      else PyRatio.inf)
  else if left_mean < right_mean then
    ("Right", if 0 < left_mean then PyRatio.val (right_mean / left_mean)
      else PyRatio.inf)
  else
    ("Bilateral", PyRatio.val 1)

/-- The hemisphere label of the most active channel, defaulting to
`"Midline"`. -/
def mostActiveHemi (ch : String) : String :=
  if ch ∈ left_hemisphere then "Left"
  else if ch ∈ right_hemisphere then "Right"
  else "Midline"

/-- `analyze_hemisphere_epileptogenic_zone(con, n_channels, ch_names,
metric_func)` from src/metrics.py.  `metric_func` (whose Python default is
`compute_degree_strength`) produces the per-channel metric vector; the code
then groups the channels, averages the metric per group
(an empty group means `0`), decide dominance, and find the most active
channel — a raising step (`np.argmax` of an empty vector, an out-of-range
fancy index, or `ch_names[max_idx]` out of range) yields `none`. -/
def analyze_hemisphere_epileptogenic_zone (con : NDArray) (n_channels : Nat)
    (ch_names : List String) (metric_func : NDArray → Nat → Option (List ℚ)) :
    Option HemisphereAnalysis := do
  let metric_values ← metric_func con n_channels
  let left_indices := hemiIdx ch_names left_hemisphere
  let right_indices := hemiIdx ch_names right_hemisphere
  let midline_indices := hemiIdx ch_names midline
  let left_values ← traverseOpt (fun i => metric_values[i]?) left_indices
  let right_values ← traverseOpt (fun i => metric_values[i]?) right_indices
  let midline_values ← traverseOpt (fun i => metric_values[i]?) midline_indices
  let left_mean := groupMean left_values
  let right_mean := groupMean right_values
  let midline_mean := groupMean midline_values
  let decision := dominanceDecision left_mean right_mean
  let max_idx ← pyArgmax metric_values
  let most_active_channel ← ch_names[max_idx]?
  pure {
    dominant_hemisphere := decision.1
    dominance_ratio := decision.2
    left_mean := left_mean
    right_mean := right_mean
    midline_mean := midline_mean
    most_active_channel := most_active_channel
    most_active_hemisphere := mostActiveHemi most_active_channel
    left_channels := left_indices.map (fun i => ch_names.getD i "")
    right_channels := right_indices.map (fun i => ch_names.getD i "")
    midline_channels := midline_indices.map (fun i => ch_names.getD i "")
    metric_values := metric_values }

/-- One band's entry of `con_results`: the connectivity data and the channel
names. -/
structure BandData where
  connectivity : NDArray
  ch_names : List String
deriving Repr

/-- The dictionary returned by
`analyze_multiband_hemisphere_epileptogenic_zone` (its nested
`band_dominance_summary` flattened into the four count fields). -/
structure MultibandSummary where
  band_results : List (String × HemisphereAnalysis)
  overall_dominance : String
  left_count : Nat
  right_count : Nat
  bilateral_count : Nat
  total_bands : Nat
  most_frequent_active_channel : String
  channel_frequency : List (String × Nat)
  average_dominance_ratio : ℚ
  band_specific_ratios : List (String × ℚ)
deriving DecidableEq, Repr

/-- `counts[ch] = counts.get(ch, 0) + 1` on an insertion-ordered dictionary
modelled as an association list. -/
def bump : List (String × Nat) → String → List (String × Nat)
  | [], ch => [(ch, 1)]
  | (k, c) :: rest, ch =>
    if k = ch then (k, c + 1) :: rest else (k, c) :: bump rest ch

/-- The `channel_counts` tally loop: one `bump` per element, in order. -/
def tally (l : List String) : List (String × Nat) := l.foldl bump []

/-- Scan for Python's `max(d, key=d.get)`: the first key of maximal value
wins (a later equal value never replaces the current best). -/
def dictMaxAux : String → Nat → List (String × Nat) → String
  | bestK, _, [] => bestK
  | bestK, bestV, (k, v) :: rest =>
    if bestV < v then dictMaxAux k v rest else dictMaxAux bestK bestV rest

/-- `max(d, key=d.get)` over an insertion-ordered dictionary; `ValueError`
(`none`) when the dictionary is empty. -/
def dictMaxByValue : List (String × Nat) → Option String
  | [] => none
  | (k, v) :: rest => some (dictMaxAux k v rest)

/-- One band's entry of `avg_dominance_ratios`: the dominance ratio when it
is finite, skipped (`none`) when it is `np.inf`. -/
def bandRatio (p : String × HemisphereAnalysis) : Option (String × ℚ) :=
  match p.2.dominance_ratio with
  | .inf => none
  | .val q => some (p.1, q)

/-- The overall-dominance branch: strict majority of Left or Right band
counts, otherwise `"Mixed"`. -/
def overallFrom (left_count right_count : Nat) : String :=
  if right_count < left_count then "Left"
  else if left_count < right_count then "Right"
  else "Mixed"

/-- `analyze_multiband_hemisphere_epileptogenic_zone(con_results,
metric_func)` from src/metrics.py.  `con_results` is the insertion-ordered
band dictionary, modelled as an association list (its keys are dictionary
keys in the source, hence distinct); channel names and count are taken from
the first band, each band is analyzed, and the cross-band summary is built:
dominance counts, the overall label, the most frequent most-active channel,
and the mean of the finite dominance ratios (`1.0` when every band's ratio
is `np.inf`). -/
def analyze_multiband_hemisphere_epileptogenic_zone
    (con_results : List (String × BandData))
    (metric_func : NDArray → Nat → Option (List ℚ)) :
    Option MultibandSummary := do
  let first_band ← (con_results.head?).map (fun p => p.2)
  let n_channels := first_band.ch_names.length
  let ch_names := first_band.ch_names
  let results ← traverseOpt (fun p =>
    (analyze_hemisphere_epileptogenic_zone (squeeze p.2.connectivity)
        n_channels ch_names metric_func).map
      (fun a => (p.1, a))) con_results
  let doms := results.map (fun p => p.2.dominant_hemisphere)
  let left_count := doms.count "Left"
  let right_count := doms.count "Right"
  let bilateral_count := doms.count "Bilateral"
  let overall_dominance := overallFrom left_count right_count
  let channel_counts := tally (results.map (fun p => p.2.most_active_channel))
  let most_frequent_channel ← dictMaxByValue channel_counts
  let avg_dominance_ratios := results.filterMap bandRatio
  let overall_avg_ratio :=
    if avg_dominance_ratios.isEmpty then 1
    else listMean (avg_dominance_ratios.map (fun p => p.2))
  pure {
    band_results := results
    overall_dominance := overall_dominance
    left_count := left_count
    right_count := right_count
    bilateral_count := bilateral_count
    total_bands := con_results.length
    most_frequent_active_channel := most_frequent_channel
    channel_frequency := channel_counts
    average_dominance_ratio := overall_avg_ratio
    band_specific_ratios := avg_dominance_ratios }

/-- Modelled from the spec: the WeightedGraph's adjacency — src/ holds no
global-metric code, so the graph over a matrix follows §3/§4.3 of the spec:
an edge for every pair `(i, j)` whose entry is present (nonzero), self-loops
excluded. -/
def adjB (m : Mat) (i j : Nat) : Bool :=
  decide (i ≠ j) && decide (ent m i j ≠ 0)

/-- Modelled from the spec: `v` is reachable from `u` by a walk of at most
`k` edges of the unweighted topology. -/
def reachInB (m : Mat) (u : Nat) : Nat → Nat → Bool
  | v, 0 => decide (u = v)
  | v, k + 1 =>
    decide (u = v) ||
      (List.range m.length).any (fun w => adjB m w v && reachInB m u w k)

/-- Modelled from the spec: the shortest-path length between `u` and `v` —
the least number of edges of any connecting walk (`none` when disconnected;
a connecting walk, if any, needs at most `m.length` edges, so the search up
to that bound is exhaustive). -/
def spDist (m : Mat) (u v : Nat) : Option Nat :=
  (List.range (m.length + 1)).find? (fun k => reachInB m u v k)

/-- Modelled from the spec: one node pair's contribution to global
efficiency — the inverse shortest-path length, `0` for an unreachable
pair. -/
def invDistQ (m : Mat) (u v : Nat) : ℚ :=
  match spDist m u v with
  | none => 0
  | some 0 => 0
  | some d => (d : ℚ)⁻¹

/-- All ordered node pairs `(u, v)` with `u ≠ v`. -/
def distinctPairs (n : Nat) : List (Nat × Nat) :=
  ((List.range n).flatMap (fun u => (List.range n).map (fun v => (u, v)))).filter
    (fun p => decide (p.1 ≠ p.2))

/-- Modelled from the spec: global efficiency — the mean of inverse
shortest-path lengths over all node pairs (unweighted topology); `0` when
there are no pairs. -/
def global_efficiency (m : Mat) : ℚ :=
  let n := m.length
  if n ≤ 1 then 0
  else ((distinctPairs n).map (fun p => invDistQ m p.1 p.2)).sum / (n * (n - 1) : ℚ)

/-- Weighted degree `k_i`: the `i`-th row sum. -/
def rowSum (m : Mat) (i : Nat) : ℚ :=
  ((List.range m.length).map (fun j => ent m i j)).sum

/-- Twice the total edge weight, `2m = Σ_ij A_ij`. -/
def twoM (m : Mat) : ℚ :=
  ((List.range m.length).map (fun i => rowSum m i)).sum

/-- Modelled from the spec: the weighted modularity score of a community
partition, `Q = Σ_c [Σ_{i,j∈c} A_ij / 2m − (Σ_{i∈c} k_i / 2m)²]` (`0` on an
all-zero matrix). -/
def modularityScore (m : Mat) (comms : List (List Nat)) : ℚ :=
  let tw := twoM m
  if tw = 0 then 0
  else (comms.map (fun c =>
    (c.map (fun i => (c.map (fun j => ent m i j)).sum)).sum / tw
      - ((c.map (fun i => rowSum m i)).sum / tw) ^ 2)).sum

/-- All ways to pick one element of a list, returned with the rest. -/
def pickOne : List α → List (α × List α)
  | [] => []
  | b :: rest => (b, rest) :: (pickOne rest).map (fun t => (t.1, b :: t.2))

/-- All ways to pick an unordered pair of elements, returned with the rest. -/
def choose2 : List α → List ((α × α) × List α)
  | [] => []
  | a :: rest =>
    (pickOne rest).map (fun t => ((a, t.1), t.2))
      ++ (choose2 rest).map (fun t => (t.1, a :: t.2))

/-- Every partition obtainable from `p` by merging two of its communities. -/
def candidateMerges (p : List (List Nat)) : List (List (List Nat)) :=
  (choose2 p).map (fun t => (t.1.1 ++ t.1.2) :: t.2)

/-- Scan for the first candidate of maximal score. -/
def bestByAux (score : List (List Nat) → ℚ) :
    List (List Nat) → ℚ → List (List (List Nat)) → List (List Nat)
  | best, _, [] => best
  | best, bestS, c :: rest =>
    if bestS < score c then bestByAux score c (score c) rest
    else bestByAux score best bestS rest

/-- The first candidate of maximal score (`none` when there are none). -/
def bestBy (score : List (List Nat) → ℚ) :
    List (List (List Nat)) → Option (List (List Nat))
  | [] => none
  | c :: rest => some (bestByAux score c (score c) rest)

/-- Modelled from the spec: one greedy step — the best available merge when
it strictly improves modularity, `none` otherwise. -/
def greedyStep (m : Mat) (p : List (List Nat)) : Option (List (List Nat)) :=
  match bestBy (modularityScore m) (candidateMerges p) with
  | none => none
  | some q => if modularityScore m p < modularityScore m q then some q else none

/-- Modelled from the spec: repeat greedy merging until no merge improves
modularity (the fuel bounds the rounds; each merge shrinks the partition,
so `n` rounds always suffice). -/
def greedyLoop (m : Mat) : Nat → List (List Nat) → List (List Nat)
  | 0, p => p
  | fuel + 1, p =>
    match greedyStep m p with
    | none => p
    | some q => greedyLoop m fuel q

/-- The discrete partition `{{0}, …, {n−1}}`. -/
def singletons (n : Nat) : List (List Nat) := (List.range n).map (fun i => [i])

/-- Modelled from the spec: greedy modularity-maximizing community
detection — agglomerate from singletons, merging while modularity
improves. -/
def greedy_modularity_communities (m : Mat) : List (List Nat) :=
  greedyLoop m m.length (singletons m.length)

/-- Modelled from the spec: the modularity global metric — the modularity
score of the partition found by community detection. -/
def modularity_metric (m : Mat) : ℚ :=
  modularityScore m (greedy_modularity_communities m)

/-- `p` is a partition of the nodes `0 … n−1`: its communities, concatenated,
are a permutation of them. -/
def IsPartitionOf (p : List (List Nat)) (n : Nat) : Prop :=
  p.flatten.Perm (List.range n)

/-- A concrete metric function for witnesses: channel metrics `[3, 1]`. -/
def sampleMetric : NDArray → Nat → Option (List ℚ) := fun _ _ => some [3, 1]

/-- A concrete one-band input for witnesses. -/
def sampleBands : List (String × BandData) :=
  [("alpha", { connectivity := NDArray.two [[0]], ch_names := ["F3", "F4"] })]

/-- The hemisphere analysis the sample input produces. -/
def sampleAnalysis : HemisphereAnalysis :=
  { dominant_hemisphere := "Left"
    dominance_ratio := PyRatio.val 3
    left_mean := 3
    right_mean := 1
    midline_mean := 0
    most_active_channel := "F3"
    most_active_hemisphere := "Left"
    left_channels := ["F3"]
    right_channels := ["F4"]
    midline_channels := []
    metric_values := [3, 1] }

/-- The multiband summary the sample input produces. -/
def sampleSummary : MultibandSummary :=
  { band_results := [("alpha", sampleAnalysis)]
    overall_dominance := "Left"
    left_count := 1
    right_count := 0
    bilateral_count := 0
    total_bands := 1
    most_frequent_active_channel := "F3"
    channel_frequency := [("F3", 1)]
    average_dominance_ratio := 3
    band_specific_ratios := [("alpha", 3)] }

lemma length_setEntry (m : Mat) (i j : Nat) (x : ℚ) :
    (setEntry m i j x).length = m.length := by
  simp [setEntry]

lemma getDrow_setEntry (m : Mat) (i j k : Nat) (x : ℚ) :
    (setEntry m i j x).getD k [] =
      if i = k ∧ i < m.length then (m.getD i []).set j x else m.getD k [] := by
  simp only [setEntry, List.getD_eq_getElem?_getD, List.getElem?_set]
  by_cases hik : i = k
  · subst hik
    by_cases hi : i < m.length
    · simp [hi]
    · simp [hi, List.getElem?_eq_none (Nat.le_of_not_lt hi)]
  · simp [hik]

lemma ent_setEntry (m : Mat) (i j a b : Nat) (x : ℚ) :
    ent (setEntry m i j x) a b =
      if i = a ∧ j = b ∧ j < (m.getD i []).length then x
      else ent m a b := by
  unfold ent
  rw [getDrow_setEntry]
  by_cases hia : i = a
  · subst hia
    by_cases hi : i < m.length
    · rw [if_pos ⟨rfl, hi⟩, List.getD_eq_getElem?_getD, List.getElem?_set]
      by_cases hjb : j = b
      · subst hjb
        by_cases hj : j < (m.getD i []).length
        · have hj' : j < (m[i]?.getD []).length := by
            rw [← List.getD_eq_getElem?_getD]
            exact hj
          simp [hj', List.getD_eq_getElem?_getD]
        · have hj' : ¬j < (m[i]?.getD []).length := by
            rw [← List.getD_eq_getElem?_getD]
            exact hj
          have hnone : (m[i]?.getD [])[j]? = none :=
            List.getElem?_eq_none (Nat.le_of_not_lt hj')
          simp [hj', List.getD_eq_getElem?_getD, hnone]
      · simp [hjb, List.getD_eq_getElem?_getD]
    · rw [if_neg (fun hc => hi hc.2)]
      have hnil : m.getD i [] = [] := by
        rw [List.getD_eq_getElem?_getD,
          List.getElem?_eq_none (Nat.le_of_not_lt hi)]
        rfl
      rw [hnil]
      simp
  · simp [hia]

lemma isSquareN_setEntry {m : Mat} {n : Nat} (h : IsSquareN m n)
    (i j : Nat) (x : ℚ) : IsSquareN (setEntry m i j x) n := by
  obtain ⟨hlen, hrow⟩ := h
  refine ⟨by rw [length_setEntry, hlen], fun k hk => ?_⟩
  rw [getDrow_setEntry]
  split_ifs with hc
  · rw [List.length_set]
    exact hrow i (hlen ▸ hc.2)
  · exact hrow k hk

lemma isSquareN_set2 {m : Mat} {n : Nat} (h : IsSquareN m n)
    (i j : Nat) (x : ℚ) : IsSquareN (set2 m i j x) n :=
  isSquareN_setEntry (isSquareN_setEntry h i j x) j i x

lemma ent_set2 {m : Mat} {n : Nat} (h : IsSquareN m n) {i j : Nat}
    (hi : i < n) (hj : j < n) (hij : i ≠ j) (x : ℚ) (a b : Nat) :
    ent (set2 m i j x) a b =
      if (i = a ∧ j = b) ∨ (j = a ∧ i = b) then x else ent m a b := by
  obtain ⟨hlen, hrow⟩ := h
  have hrowi : (m.getD i []).length = n := hrow i hi
  have hrowj : ((setEntry m i j x).getD j []).length = n := by
    rw [getDrow_setEntry]
    split_ifs with hc
    · exact absurd hc.1 hij
    · exact hrow j hj
  unfold set2
  rw [ent_setEntry, ent_setEntry, hrowj, hrowi]
  by_cases h1 : j = a ∧ i = b
  · rw [if_pos ⟨h1.1, h1.2, hi⟩, if_pos (Or.inr h1)]
  · rw [if_neg (fun hc => h1 ⟨hc.1, hc.2.1⟩)]
    by_cases h2 : i = a ∧ j = b
    · rw [if_pos ⟨h2.1, h2.2, hj⟩, if_pos (Or.inl h2)]
    · rw [if_neg (fun hc => h2 ⟨hc.1, hc.2.1⟩), if_neg (by tauto)]

lemma isSquareN_zeros (n : Nat) : IsSquareN (zeros n) n := by
  refine ⟨by simp [zeros], fun k hk => ?_⟩
  simp [zeros, List.getD_eq_getElem?_getD, List.getElem?_replicate, hk]

lemma ent_zeros (n a b : Nat) : ent (zeros n) a b = 0 := by
  unfold ent zeros
  simp only [List.getD_eq_getElem?_getD]
  rw [List.getElem?_replicate]
  split_ifs with ha
  · simp only [Option.getD_some]
    rw [List.getElem?_replicate]
    split_ifs <;> rfl
  · simp

lemma fillPairs_eq_fillC (v : List ℚ) :
    ∀ (ps : List (Nat × Nat)) (idx : Nat) (m : Mat),
      fillPairs v ps idx m = fillC (v.drop idx) ps m := by
  intro ps
  induction ps with
  | nil =>
    intro idx m
    cases List.drop idx v <;> rfl
  | cons p rest ih =>
    intro idx m
    obtain ⟨i, j⟩ := p
    have hhead : (v.drop idx)[0]? = v[idx]? := by
      rw [List.getElem?_drop, Nat.add_zero]
    cases hd : v.drop idx with
    | nil =>
      have hx : v[idx]? = none := by rw [← hhead, hd]; rfl
      simp only [fillPairs, hx]
      rfl
    | cons x t =>
      have hx : v[idx]? = some x := by rw [← hhead, hd]; simp
      have htail : v.drop (idx + 1) = t := by
        have h2 : v.drop (idx + 1) = (v.drop idx).drop 1 := by
          rw [List.drop_drop, Nat.add_comm]
        rw [h2, hd, List.drop_one]
        rfl
      simp only [fillPairs, hx]
      rw [ih (idx + 1), htail]
      rfl

lemma fillC_none :
    ∀ (ps : List (Nat × Nat)) (v : List ℚ) (m : Mat), v.length < ps.length →
      fillC v ps m = none := by
  intro ps
  induction ps with
  | nil => intro v m h; simp at h
  | cons p rest ih =>
    intro v m h
    obtain ⟨i, j⟩ := p
    cases v with
    | nil => rfl
    | cons x t =>
      show fillC t rest (set2 m i j x) = none
      exact ih t _ (by simpa using h)

lemma fillC_some :
    ∀ (ps : List (Nat × Nat)) (v : List ℚ) (m : Mat), ps.length ≤ v.length →
      ∃ r, fillC v ps m = some r := by
  intro ps
  induction ps with
  | nil => intro v m _; cases v <;> exact ⟨m, rfl⟩
  | cons p rest ih =>
    intro v m h
    obtain ⟨i, j⟩ := p
    cases v with
    | nil => simp at h
    | cons x t =>
      show ∃ r, fillC t rest (set2 m i j x) = some r
      exact ih t _ (by simpa using h)

lemma fillC_sym_inv {n : Nat} :
    ∀ (ps : List (Nat × Nat)) (v : List ℚ) (m r : Mat),
      IsSquareN m n → (∀ p ∈ ps, p.2 < p.1 ∧ p.1 < n) →
      (∀ a b, ent m a b = ent m b a) → (∀ a, ent m a a = 0) →
      fillC v ps m = some r →
      IsSquareN r n ∧ (∀ a b, ent r a b = ent r b a) ∧ (∀ a, ent r a a = 0) := by
  intro ps
  induction ps with
  | nil =>
    intro v m r hsq _ hsymm hdiag h
    cases v <;> cases h <;> exact ⟨hsq, hsymm, hdiag⟩
  | cons p rest ih =>
    intro v m r hsq hbnd hsymm hdiag h
    obtain ⟨i, j⟩ := p
    cases v with
    | nil => exact absurd h (by simp [fillC])
    | cons x t =>
      have hb := hbnd (i, j) (List.mem_cons_self _ _)
      have hij : i ≠ j := ne_of_gt hb.1
      have hi : i < n := hb.2
      have hj : j < n := lt_trans hb.1 hb.2
      refine ih t _ r (isSquareN_set2 hsq i j x)
        (fun q hq => hbnd q (List.mem_cons_of_mem _ hq)) ?_ ?_ h
      · intro a b
        rw [ent_set2 hsq hi hj hij, ent_set2 hsq hi hj hij]
        by_cases hc : (i = a ∧ j = b) ∨ (j = a ∧ i = b)
        · have hc' : (i = b ∧ j = a) ∨ (j = b ∧ i = a) := by tauto
          simp [hc, hc']
        · have hc' : ¬((i = b ∧ j = a) ∨ (j = b ∧ i = a)) := by tauto
          simp [hc, hc', hsymm a b]
      · intro a
        rw [ent_set2 hsq hi hj hij]
        have hno : ¬((i = a ∧ j = a) ∨ (j = a ∧ i = a)) := by
          rintro (⟨h1, h2⟩ | ⟨h1, h2⟩) <;> exact hij (by omega)
        simp [hno, hdiag a]

lemma fillC_fill {n : Nat} (M : Mat) :
    ∀ (ps : List (Nat × Nat)) (acc : Mat),
      IsSquareN acc n → (∀ p ∈ ps, p.2 < p.1 ∧ p.1 < n) →
      (∀ p ∈ ps, ent M p.1 p.2 = ent M p.2 p.1) →
      ∃ r, fillC (ps.map (fun p => ent M p.1 p.2)) ps acc = some r ∧
        IsSquareN r n ∧
        ∀ a b, ent r a b =
          if (a, b) ∈ ps ∨ (b, a) ∈ ps then ent M a b else ent acc a b := by
  intro ps
  induction ps with
  | nil =>
    intro acc hsq _ _
    exact ⟨acc, rfl, hsq, by simp⟩
  | cons p rest ih =>
    intro acc hsq hbnd hsym
    obtain ⟨i, j⟩ := p
    have hb := hbnd (i, j) (List.mem_cons_self _ _)
    have hij : i ≠ j := ne_of_gt hb.1
    have hi : i < n := hb.2
    have hj : j < n := lt_trans hb.1 hb.2
    obtain ⟨r, hr, hrsq, hre⟩ := ih (set2 acc i j (ent M i j))
      (isSquareN_set2 hsq i j _)
      (fun q hq => hbnd q (List.mem_cons_of_mem _ hq))
      (fun q hq => hsym q (List.mem_cons_of_mem _ hq))
    refine ⟨r, hr, hrsq, ?_⟩
    intro a b
    rw [hre a b, ent_set2 hsq hi hj hij]
    by_cases hcov : (a, b) ∈ rest ∨ (b, a) ∈ rest
    · have hbig : (a, b) ∈ (i, j) :: rest ∨ (b, a) ∈ (i, j) :: rest := by
        rcases hcov with hc | hc
        · exact Or.inl (List.mem_cons_of_mem _ hc)
        · exact Or.inr (List.mem_cons_of_mem _ hc)
      rw [if_pos hcov, if_pos hbig]
    · by_cases hpair : (i = a ∧ j = b) ∨ (j = a ∧ i = b)
      · have hbig : (a, b) ∈ (i, j) :: rest ∨ (b, a) ∈ (i, j) :: rest := by
          rcases hpair with ⟨h1, h2⟩ | ⟨h1, h2⟩
          · refine Or.inl ?_
            have heq : (a, b) = (i, j) := by rw [h1, h2]
            rw [heq]
            exact List.mem_cons_self _ _
          · refine Or.inr ?_
            have heq : (b, a) = (i, j) := by rw [h2, h1]
            rw [heq]
            exact List.mem_cons_self _ _
        have hval : ent M i j = ent M a b := by
          rcases hpair with ⟨h1, h2⟩ | ⟨h1, h2⟩
          · rw [h1, h2]
          · rw [← h1, ← h2]
            exact hsym (i, j) (List.mem_cons_self _ _)
        rw [if_neg hcov, if_pos hpair, if_pos hbig, hval]
      · have hbig : ¬((a, b) ∈ (i, j) :: rest ∨ (b, a) ∈ (i, j) :: rest) := by
          rintro (hmem | hmem) <;> rcases List.mem_cons.mp hmem with heq | hmem2
          · obtain ⟨e1, e2⟩ := Prod.ext_iff.mp heq
            exact hpair (Or.inl ⟨e1.symm, e2.symm⟩)
          · exact hcov (Or.inl hmem2)
          · obtain ⟨e1, e2⟩ := Prod.ext_iff.mp heq
            exact hpair (Or.inr ⟨e2.symm, e1.symm⟩)
          · exact hcov (Or.inr hmem2)
        rw [if_neg hcov, if_neg hpair, if_neg hbig]

lemma mem_lowerPairs {n : Nat} {p : Nat × Nat} :
    p ∈ lowerPairs n ↔ p.2 < p.1 ∧ p.1 < n := by
  obtain ⟨a, b⟩ := p
  simp only [lowerPairs, List.mem_flatMap, List.mem_map, List.mem_range,
    Prod.mk.injEq]
  constructor
  · rintro ⟨i, hi, j, hj, h1, h2⟩
    subst h1; subst h2
    exact ⟨hj, hi⟩
  · rintro ⟨h1, h2⟩
    exact ⟨a, h2, b, h1, rfl, rfl⟩

lemma twice_length_lowerPairs (n : Nat) :
    2 * (lowerPairs n).length = n * (n - 1) := by
  induction n with
  | zero => rfl
  | succ k ih =>
    have hsplit : lowerPairs (k + 1) =
        lowerPairs k ++ (List.range k).map (fun j => (k, j)) := by
      simp [lowerPairs, List.range_succ]
    rw [hsplit, List.length_append, List.length_map, List.length_range,
      Nat.mul_add, ih]
    cases k with
    | zero => rfl
    | succ t =>
      simp only [Nat.succ_sub_one]
      ring

lemma length_lowerPairs (n : Nat) : (lowerPairs n).length = n * (n - 1) / 2 := by
  have h := twice_length_lowerPairs n
  generalize n * (n - 1) = P at h ⊢
  omega

lemma length_lowerTriangle (m : Mat) (n : Nat) :
    (lowerTriangle m n).length = n * (n - 1) / 2 := by
  rw [lowerTriangle, List.length_map, length_lowerPairs]

lemma mat_ext {A B : Mat} {n : Nat} (hA : IsSquareN A n) (hB : IsSquareN B n)
    (h : ∀ a b, a < n → b < n → ent A a b = ent B a b) : A = B := by
  have hAlen : A.length = n := hA.1
  have hBlen : B.length = n := hB.1
  apply List.ext_getElem?
  intro k
  by_cases hk : k < n
  · have hkA : k < A.length := hA.1 ▸ hk
    have hkB : k < B.length := hB.1 ▸ hk
    rw [List.getElem?_eq_getElem hkA, List.getElem?_eq_getElem hkB]
    have hrowA : A[k] = A.getD k [] := (List.getD_eq_getElem A [] hkA).symm
    have hrowB : B[k] = B.getD k [] := (List.getD_eq_getElem B [] hkB).symm
    have hlenA : A[k].length = n := by rw [hrowA]; exact hA.2 k hk
    have hlenB : B[k].length = n := by rw [hrowB]; exact hB.2 k hk
    congr 1
    apply List.ext_getElem?
    intro b
    by_cases hb : b < n
    · have hbA : b < A[k].length := hlenA ▸ hb
      have hbB : b < B[k].length := hlenB ▸ hb
      rw [List.getElem?_eq_getElem hbA, List.getElem?_eq_getElem hbB]
      have eA : A[k][b] = ent A k b := by
        rw [ent, ← hrowA, List.getD_eq_getElem _ _ hbA]
      have eB : B[k][b] = ent B k b := by
        rw [ent, ← hrowB, List.getD_eq_getElem _ _ hbB]
      rw [eA, eB, h k b hk hb]
    · rw [List.getElem?_eq_none (by omega : A[k].length ≤ b),
        List.getElem?_eq_none (by omega : B[k].length ≤ b)]
  · rw [List.getElem?_eq_none (by omega : A.length ≤ k),
      List.getElem?_eq_none (by omega : B.length ≤ k)]

lemma prepare_one (v : List ℚ) (n : Nat) (hv : v.length ≠ 1) :
    prepare_connectivity_matrix (.one v) n =
      (fillC v (lowerPairs n) (zeros n)).map NDArray.two := by
  have hs : squeeze (.one v) = .one v := by
    simp only [squeeze]
    rw [if_neg hv]
  unfold prepare_connectivity_matrix
  rw [hs]
  show (fillPairs v (lowerPairs n) 0 (zeros n)).map NDArray.two = _
  rw [fillPairs_eq_fillC, List.drop_zero]

lemma squeeze_one_ne_one {con : NDArray} {v : List ℚ}
    (h : squeeze con = .one v) : v.length ≠ 1 := by
  cases con with
  | scalar0 x => simp [squeeze] at h
  | one w =>
    simp only [squeeze] at h
    by_cases hw : w.length = 1
    · rw [if_pos hw] at h
      exact absurd h (by simp)
    · rw [if_neg hw] at h
      injection h with hv
      subst hv
      exact hw
  | two m =>
    simp only [squeeze] at h
    by_cases h1 : m.length = 1 ∧ (m.headD []).length = 1
    · rw [if_pos h1] at h
      exact absurd h (by simp)
    · rw [if_neg h1] at h
      by_cases h2 : m.length = 1
      · rw [if_pos h2] at h
        injection h with hv
        subst hv
        intro hc
        exact h1 ⟨h2, hc⟩
      · rw [if_neg h2] at h
        by_cases h3 : (m.headD []).length = 1
        · rw [if_pos h3] at h
          injection h with hv
          subst hv
          intro hc
          rw [List.length_map] at hc
          exact h2 hc
        · rw [if_neg h3] at h
          exact absurd h (by simp)

/-- C1 (amended): a 1-D vector (one that `squeeze` keeps 1-D, i.e. of length
other than 1) shorter than `n·(n−1)/2` makes the reconstruction loop read
past the vector's end, an `IndexError`; but a longer vector is silently
truncated — reconstruction succeeds using only the first `n·(n−1)/2`
entries — and a 2-D matrix (at least `2×2`, so `squeeze` keeps it 2-D) is
returned unchanged whatever `n_channels` is declared: no dimension check
against the channel count ever happens. -/
theorem prepare_shape_error_handling :
    (∀ (v : List ℚ) (n : Nat), v.length ≠ 1 → v.length < n * (n - 1) / 2 →
      prepare_connectivity_matrix (.one v) n = none) ∧
    (∀ (v : List ℚ) (n : Nat), v.length ≠ 1 → n * (n - 1) / 2 ≤ v.length →
      ∃ M : Mat, prepare_connectivity_matrix (.one v) n = some (.two M)) ∧
    (∀ (m : Mat) (n : Nat), 2 ≤ m.length → 2 ≤ (m.headD []).length →
      prepare_connectivity_matrix (.two m) n = some (.two m)) := by
  refine ⟨?_, ?_, ?_⟩
  · intro v n hv hlen
    rw [prepare_one v n hv,
      fillC_none (lowerPairs n) v (zeros n)
        (by rw [length_lowerPairs]; exact hlen)]
    rfl
  · intro v n hv hlen
    obtain ⟨r, hr⟩ := fillC_some (lowerPairs n) v (zeros n)
      (by rw [length_lowerPairs]; exact hlen)
    exact ⟨r, by rw [prepare_one v n hv, hr]; rfl⟩
  · intro m n hrows hcols
    have h1 : ¬(m.length = 1 ∧ (m.headD []).length = 1) := by
      intro hc
      omega
    have h2 : ¬m.length = 1 := by omega
    have h3 : ¬(m.headD []).length = 1 := by omega
    have hs : squeeze (.two m) = .two m := by
      simp only [squeeze]
      rw [if_neg h1, if_neg h2, if_neg h3]
    unfold prepare_connectivity_matrix
    rw [hs]

/-- C1 counterexample: a `2×2` matrix passed with a declared channel count of
`3` is not rejected — it is returned unchanged, so a dimension mismatch
does not fail fast. -/
theorem prepare_shape_error_counterexample :
    prepare_connectivity_matrix (.two [[0, 1], [1, 0]]) 3 =
      some (.two [[0, 1], [1, 0]]) := by
  rfl

/-- C1 witness: the amended behavior at concrete inputs — a length-2 vector
with `n = 3` fails, a length-4 vector with `n = 3` succeeds (silent
truncation), and a `2×2` matrix with `n = 5` passes through. -/
theorem prepare_shape_error_witness :
    prepare_connectivity_matrix (.one [1, 2]) 3 = none ∧
    (∃ M : Mat, prepare_connectivity_matrix (.one [1, 2, 3, 4]) 3 = some (.two M)) ∧
    prepare_connectivity_matrix (.two [[0, 1], [1, 0]]) 5 =
      some (.two [[0, 1], [1, 0]]) :=
  ⟨prepare_shape_error_handling.1 [1, 2] 3 (by decide) (by decide),
   prepare_shape_error_handling.2.1 [1, 2, 3, 4] 3 (by decide) (by decide),
   prepare_shape_error_handling.2.2 [[0, 1], [1, 0]] 5 (by decide) (by decide)⟩

/-- C3 (amended): the round trip holds for `N = 1` and every `N ≥ 3` — for a
symmetric `N×N` matrix with zero diagonal, reconstructing from its strict
lower triangle (row-major) returns exactly the original matrix.  `N = 2` is
excluded: there the triangle has length 1 and `squeeze` collapses it to a
0-d scalar, which the reconstructor returns unchanged. -/
theorem prepare_roundtrip :
    ∀ (n : Nat) (M : Mat), 1 ≤ n → n ≠ 2 → IsSquareN M n →
      (∀ a, a < n → ∀ b, b < n → ent M a b = ent M b a) →
      (∀ a, a < n → ent M a a = 0) →
      prepare_connectivity_matrix (.one (lowerTriangle M n)) n =
        some (.two M) := by
  intro n M hn hn2 hsq hsymm hdiag
  have hlen1 : (lowerTriangle M n).length ≠ 1 := by
    rw [lowerTriangle, List.length_map]
    intro hcon
    apply hn2
    have h2 := twice_length_lowerPairs n
    rw [hcon] at h2
    by_contra hneq
    rcases Nat.lt_or_ge n 3 with hlt | hge
    · have hzero : n * (n - 1) = 0 := by
        rcases (by omega : n = 0 ∨ n = 1) with rfl | rfl <;> rfl
      rw [hzero] at h2
      norm_num at h2
    · have hmul : 3 * 2 ≤ n * (n - 1) := Nat.mul_le_mul (by omega) (by omega)
      generalize n * (n - 1) = X at h2 hmul
      omega
  obtain ⟨r, hr, hrsq, hre⟩ := fillC_fill (n := n) M (lowerPairs n) (zeros n)
    (isSquareN_zeros n)
    (fun p hp => mem_lowerPairs.mp hp)
    (fun p hp => by
      have hb := mem_lowerPairs.mp hp
      exact hsymm p.1 hb.2 p.2 (lt_trans hb.1 hb.2))
  have hrM : r = M := by
    apply mat_ext hrsq hsq
    intro a b ha hb
    rw [hre a b]
    by_cases hab : a = b
    · subst hab
      have hno : ¬((a, a) ∈ lowerPairs n ∨ (a, a) ∈ lowerPairs n) := by
        rw [or_self]
        intro hmem
        exact absurd (mem_lowerPairs.mp hmem).1 (lt_irrefl a)
      rw [if_neg hno, ent_zeros]
      exact (hdiag a ha).symm
    · rcases Nat.lt_or_ge a b with hlt | hge
      · have hmem : (b, a) ∈ lowerPairs n := mem_lowerPairs.mpr ⟨hlt, hb⟩
        rw [if_pos (Or.inr hmem)]
      · have hlt' : b < a := by omega
        have hmem : (a, b) ∈ lowerPairs n := mem_lowerPairs.mpr ⟨hlt', ha⟩
        rw [if_pos (Or.inl hmem)]
  rw [prepare_one _ n hlen1,
    show lowerTriangle M n = (lowerPairs n).map (fun p => ent M p.1 p.2) from rfl,
    hr, hrM]
  rfl

/-- C3 counterexample: at `N = 2` the round trip fails — the length-1
triangle of `[[0, 5], [5, 0]]` is squeezed to a 0-d scalar and returned as
such, not as the original matrix. -/
theorem prepare_roundtrip_counterexample :
    prepare_connectivity_matrix (.one (lowerTriangle [[0, 5], [5, 0]] 2)) 2 =
      some (.scalar0 5) ∧
    prepare_connectivity_matrix (.one (lowerTriangle [[0, 5], [5, 0]] 2)) 2 ≠
      some (.two [[0, 5], [5, 0]]) := by
  exact ⟨by rfl, by decide⟩

/-- C3 witness: the round trip at the concrete symmetric zero-diagonal `3×3`
matrix `[[0,1,2],[1,0,3],[2,3,0]]`. -/
theorem prepare_roundtrip_witness :
    prepare_connectivity_matrix
        (.one (lowerTriangle [[0, 1, 2], [1, 0, 3], [2, 3, 0]] 3)) 3 =
      some (.two [[0, 1, 2], [1, 0, 3], [2, 3, 0]]) :=
  prepare_roundtrip 3 [[0, 1, 2], [1, 0, 3], [2, 3, 0]] (by decide) (by decide)
    (by decide) (by decide) (by decide)

/-- C4 (amended): every matrix the reconstructor builds from a (post-squeeze)
1-D vector is symmetric with a zero diagonal; a 2-D input, by contrast, is
returned unchanged with no validation, so it need not satisfy either
property. -/
theorem prepare_symmetry_invariant :
    ∀ (con : NDArray) (v : List ℚ) (n : Nat) (M : Mat),
      squeeze con = .one v →
      prepare_connectivity_matrix con n = some (.two M) →
      (∀ a b, ent M a b = ent M b a) ∧ (∀ a, ent M a a = 0) := by
  intro con v n M hs hp
  have hv : v.length ≠ 1 := squeeze_one_ne_one hs
  have hstep : prepare_connectivity_matrix con n =
      (fillC v (lowerPairs n) (zeros n)).map NDArray.two := by
    unfold prepare_connectivity_matrix
    rw [hs]
    show (fillPairs v (lowerPairs n) 0 (zeros n)).map NDArray.two = _
    rw [fillPairs_eq_fillC, List.drop_zero]
  rw [hstep] at hp
  cases hfc : fillC v (lowerPairs n) (zeros n) with
  | none => rw [hfc] at hp; simp at hp
  | some r =>
    rw [hfc] at hp
    simp only [Option.map_some', Option.some.injEq] at hp
    have hrM : r = M := by
      injection hp
    subst hrM
    have hinv := fillC_sym_inv (n := n) (lowerPairs n) v (zeros n) r
      (isSquareN_zeros n)
      (fun p hp' => mem_lowerPairs.mp hp')
      (fun a b => by rw [ent_zeros, ent_zeros])
      (fun a => ent_zeros n a a)
      hfc
    exact ⟨hinv.2.1, hinv.2.2⟩

/-- C4 counterexample: an asymmetric 2-D input is returned unchanged, so the
returned matrix violates both the symmetry and (had the diagonal been
nonzero) the zero-diagonal invariant claimed for every returned matrix. -/
theorem prepare_symmetry_counterexample :
    prepare_connectivity_matrix (.two [[0, 1], [2, 0]]) 2 =
      some (.two [[0, 1], [2, 0]]) ∧
    ent [[0, 1], [2, 0]] 0 1 ≠ ent [[0, 1], [2, 0]] 1 0 := by
  exact ⟨by rfl, by decide⟩

/-- C4 witness: the symmetry and zero-diagonal invariants of the matrix
reconstructed from the concrete vector `[1, 2, 3]` with three channels. -/
theorem prepare_symmetry_witness :
    (∀ a b, ent [[0, 1, 2], [1, 0, 3], [2, 3, 0]] a b =
      ent [[0, 1, 2], [1, 0, 3], [2, 3, 0]] b a) ∧
    (∀ a, ent [[0, 1, 2], [1, 0, 3], [2, 3, 0]] a a = 0) :=
  prepare_symmetry_invariant (.one [1, 2, 3]) [1, 2, 3] 3
    [[0, 1, 2], [1, 0, 3], [2, 3, 0]] (by rfl) (by rfl)

lemma traverseOpt_some_of_all {α β : Type} (g : α → Option β) (h : α → β) :
    ∀ (l : List α), (∀ x ∈ l, g x = some (h x)) →
      traverseOpt g l = some (l.map h) := by
  intro l
  induction l with
  | nil => intro _; rfl
  | cons x xs ih =>
    intro hall
    have hx := hall x (List.mem_cons_self _ _)
    have hxs := ih (fun y hy => hall y (List.mem_cons_of_mem _ hy))
    simp [traverseOpt, hx, hxs]

lemma mem_upperPairs {n : Nat} {p : Nat × Nat} :
    p ∈ upperPairs n ↔ p.1 < p.2 ∧ p.2 < n := by
  obtain ⟨a, b⟩ := p
  simp only [upperPairs, List.mem_flatMap, List.mem_map, List.mem_range,
    List.mem_range', Prod.mk.injEq]
  constructor
  · rintro ⟨i, hi, j, ⟨k, hk, hke⟩, rfl, rfl⟩
    constructor <;> omega
  · rintro ⟨h1, h2⟩
    exact ⟨a, by omega, b, ⟨b - (a + 1), by omega, by omega⟩, rfl, rfl⟩

lemma submatrix_read {m : Mat} {idxs : List Nat} {a b : Nat}
    (ha : a < idxs.length) (hb : b < idxs.length) :
    ((submatrix m idxs)[a]?.bind (fun row => row[b]?)) =
      some (ent m (idxs.getD a 0) (idxs.getD b 0)) := by
  unfold submatrix
  rw [List.getElem?_map, List.getElem?_eq_getElem ha]
  simp only [Option.map_some', Option.some_bind]
  rw [List.getElem?_map, List.getElem?_eq_getElem hb]
  simp only [Option.map_some']
  rw [List.getD_eq_getElem _ _ ha, List.getD_eq_getElem _ _ hb]

lemma collect_submatrix (M : Mat) (idxs : List Nat) (k : Nat)
    (hk : k = idxs.length) :
    collectStrengths (submatrix M idxs) k =
      some ((upperPairs k).map
        (fun q => |ent M (idxs.getD q.1 0) (idxs.getD q.2 0)|)) := by
  subst hk
  unfold collectStrengths
  apply traverseOpt_some_of_all
  intro q hq
  have hb := mem_upperPairs.mp hq
  show ((submatrix M idxs)[q.1]?.bind (fun row => row[q.2]?)).map (fun x => |x|) =
    some (|ent M (idxs.getD q.1 0) (idxs.getD q.2 0)|)
  rw [submatrix_read (lt_trans hb.1 hb.2) hb.2]
  rfl

/-- C5: in the plotting path, the matrix handed to
`calculate_connectivity_threshold` is the `np.ix_` submatrix of the full
matrix at the subset's indices, so the strengths collected are exactly the
absolute entries of the full matrix at pairs of the subset's indices (when
the index list is increasing, these are upper-triangle positions of the
full matrix), and the returned value is determined by those entries alone:
two full matrices agreeing there yield the same threshold. -/
theorem threshold_subset_entries :
    ∀ (M1 M2 : Mat) (p : ℚ) (S : List String) (idxs : List Nat),
      S.length = idxs.length →
      (∀ r ∈ idxs, ∀ c ∈ idxs, ent M1 r c = ent M2 r c) →
      (collectStrengths (submatrix M1 idxs) S.length =
        some ((upperPairs S.length).map
          (fun q => |ent M1 (idxs.getD q.1 0) (idxs.getD q.2 0)|))) ∧
      calculate_connectivity_threshold (submatrix M1 idxs) p S =
        calculate_connectivity_threshold (submatrix M2 idxs) p S ∧
      (idxs.Pairwise (· < ·) →
        ∀ q ∈ upperPairs S.length, idxs.getD q.1 0 < idxs.getD q.2 0) := by
  intro M1 M2 p S idxs hlen hagree
  have hmapeq : ((upperPairs S.length).map
      (fun q => |ent M1 (idxs.getD q.1 0) (idxs.getD q.2 0)|)) =
      ((upperPairs S.length).map
      (fun q => |ent M2 (idxs.getD q.1 0) (idxs.getD q.2 0)|)) := by
    apply List.map_congr_left
    intro q hq
    have hb := mem_upperPairs.mp hq
    have h1 : q.1 < idxs.length := by omega
    have h2 : q.2 < idxs.length := by omega
    have hm1 : idxs.getD q.1 0 ∈ idxs := by
      rw [List.getD_eq_getElem _ _ h1]
      exact List.getElem_mem h1
    have hm2 : idxs.getD q.2 0 ∈ idxs := by
      rw [List.getD_eq_getElem _ _ h2]
      exact List.getElem_mem h2
    rw [hagree _ hm1 _ hm2]
  refine ⟨collect_submatrix M1 idxs S.length hlen, ?_, ?_⟩
  · unfold calculate_connectivity_threshold
    rw [collect_submatrix M1 idxs S.length hlen,
      collect_submatrix M2 idxs S.length hlen, hmapeq]
  · intro hpw q hq
    have hb := mem_upperPairs.mp hq
    have h1 : q.1 < idxs.length := by omega
    have h2 : q.2 < idxs.length := by omega
    rw [List.getD_eq_getElem _ _ h1, List.getD_eq_getElem _ _ h2]
    exact List.pairwise_iff_getElem.mp hpw q.1 q.2 h1 h2 hb.1

/-- C5 witness: two concrete `4×4` matrices agreeing at the subset indices
`{2, 3}` (but differing at `(0, 1)`) give the same threshold through the
plotting path, and the collected strengths are the subset's entries. -/
theorem threshold_subset_entries_witness :
    (collectStrengths
        (submatrix [[0, 9, 0, 0], [9, 0, 0, 0], [0, 0, 0, 7], [0, 0, 7, 0]] [2, 3])
        (["C", "D"] : List String).length =
      some ((upperPairs (["C", "D"] : List String).length).map
        (fun q => |ent [[0, 9, 0, 0], [9, 0, 0, 0], [0, 0, 0, 7], [0, 0, 7, 0]]
          ([2, 3].getD q.1 0) ([2, 3].getD q.2 0)|))) ∧
    calculate_connectivity_threshold
        (submatrix [[0, 9, 0, 0], [9, 0, 0, 0], [0, 0, 0, 7], [0, 0, 7, 0]] [2, 3])
        0 ["C", "D"] =
      calculate_connectivity_threshold
        (submatrix [[0, 0, 0, 0], [0, 0, 0, 0], [0, 0, 0, 7], [0, 0, 7, 0]] [2, 3])
        0 ["C", "D"] ∧
    (([2, 3] : List Nat).Pairwise (· < ·) →
      ∀ q ∈ upperPairs (["C", "D"] : List String).length,
        [2, 3].getD q.1 0 < [2, 3].getD q.2 0) :=
  threshold_subset_entries
    [[0, 9, 0, 0], [9, 0, 0, 0], [0, 0, 0, 7], [0, 0, 7, 0]]
    [[0, 0, 0, 0], [0, 0, 0, 0], [0, 0, 0, 7], [0, 0, 7, 0]]
    0 ["C", "D"] [2, 3] (by rfl) (by decide)

lemma calc_eq (f : Mat) (p : ℚ) (S : List String) :
    calculate_connectivity_threshold f p S =
      (collectStrengths f S.length).bind (fun cs =>
        if cs.isEmpty then some 0
        else pyIndex (descSort cs)
          (min (pyInt (p * cs.length)) ((cs.length : Int) - 1))) := rfl

lemma pyInt_eq_floor {q : ℚ} (h : 0 ≤ q) : pyInt q = ⌊q⌋ := by
  rw [pyInt, Rat.floor_def]
  exact Int.tdiv_eq_ediv (Rat.num_nonneg.mpr h) (Int.natCast_nonneg _)

lemma pyInt_nonneg {q : ℚ} (h : 0 ≤ q) : 0 ≤ pyInt q :=
  Int.tdiv_nonneg (Rat.num_nonneg.mpr h) (Int.natCast_nonneg _)

lemma descSort_length (l : List ℚ) : (descSort l).length = l.length :=
  (List.perm_insertionSort _ l).length_eq

lemma descSort_sorted (l : List ℚ) : (descSort l).Pairwise (· ≥ ·) :=
  List.sorted_insertionSort _ l

lemma descSort_get_anti (l : List ℚ) (i j : Nat) (hij : i ≤ j)
    (hj : j < (descSort l).length) :
    (descSort l).get ⟨j, hj⟩ ≤ (descSort l).get ⟨i, lt_of_le_of_lt hij hj⟩ := by
  rcases lt_or_eq_of_le hij with hlt | heq
  · have hp := List.pairwise_iff_getElem.mp (descSort_sorted l) i j
      (lt_of_le_of_lt hij hj) hj hlt
    simpa using hp
  · subst heq
    exact le_refl _

/-- C6 (amended): for proportions `0 ≤ p1 ≤ p2`, whenever both threshold
calls return a value, `threshold(M, p1, S) ≥ threshold(M, p2, S)`.  Negative
proportions break monotonicity: Python's `int()` truncates toward zero and a
negative cutoff index wraps to the end of the descending list. -/
theorem threshold_monotone :
    ∀ (f : Mat) (S : List String) (p1 p2 t1 t2 : ℚ),
      0 ≤ p1 → p1 ≤ p2 →
      calculate_connectivity_threshold f p1 S = some t1 →
      calculate_connectivity_threshold f p2 S = some t2 →
      t2 ≤ t1 := by
  intro f S p1 p2 t1 t2 hp0 hp12 h1 h2
  rw [calc_eq] at h1 h2
  cases hcs : collectStrengths f S.length with
  | none =>
    rw [hcs] at h1
    simp at h1
  | some cs =>
    rw [hcs, Option.some_bind] at h1 h2
    by_cases hemp : cs.isEmpty
    · rw [if_pos hemp] at h1 h2
      injection h1 with e1
      injection h2 with e2
      rw [← e1, ← e2]
    · rw [if_neg hemp] at h1 h2
      have hL1 : 1 ≤ cs.length :=
        List.length_pos.mpr (fun hnil => hemp (by rw [hnil]; rfl))
      have hq1 : (0:ℚ) ≤ p1 * cs.length :=
        mul_nonneg hp0 (Nat.cast_nonneg _)
      have hq2 : (0:ℚ) ≤ p2 * cs.length :=
        mul_nonneg (le_trans hp0 hp12) (Nat.cast_nonneg _)
      have hnn1 : (0:Int) ≤ min (pyInt (p1 * cs.length)) ((cs.length : Int) - 1) := by
        apply le_min (pyInt_nonneg hq1)
        omega
      have hmono : pyInt (p1 * cs.length) ≤ pyInt (p2 * cs.length) := by
        rw [pyInt_eq_floor hq1, pyInt_eq_floor hq2]
        exact Int.floor_le_floor
          (mul_le_mul_of_nonneg_right hp12 (Nat.cast_nonneg _))
      have hcmin : min (pyInt (p1 * cs.length)) ((cs.length : Int) - 1) ≤
          min (pyInt (p2 * cs.length)) ((cs.length : Int) - 1) :=
        min_le_min hmono le_rfl
      have hnn2 : (0:Int) ≤ min (pyInt (p2 * cs.length)) ((cs.length : Int) - 1) :=
        le_trans hnn1 hcmin
      have htop1 : min (pyInt (p1 * cs.length)) ((cs.length : Int) - 1) ≤
          (cs.length : Int) - 1 := min_le_right _ _
      have htop2 : min (pyInt (p2 * cs.length)) ((cs.length : Int) - 1) ≤
          (cs.length : Int) - 1 := min_le_right _ _
      have hlen : (descSort cs).length = cs.length := descSort_length cs
      have hb1 : (min (pyInt (p1 * cs.length)) ((cs.length : Int) - 1)).toNat <
          (descSort cs).length := by
        rw [hlen]
        omega
      have hb2 : (min (pyInt (p2 * cs.length)) ((cs.length : Int) - 1)).toNat <
          (descSort cs).length := by
        rw [hlen]
        omega
      simp only [pyIndex] at h1 h2
      rw [if_pos hnn1, List.getElem?_eq_getElem hb1] at h1
      rw [if_pos hnn2, List.getElem?_eq_getElem hb2] at h2
      injection h1 with e1
      injection h2 with e2
      rw [← e1, ← e2]
      have htn : (min (pyInt (p1 * cs.length)) ((cs.length : Int) - 1)).toNat ≤
          (min (pyInt (p2 * cs.length)) ((cs.length : Int) - 1)).toNat :=
        Int.toNat_le_toNat hcmin
      simpa using descSort_get_anti cs _ _ htn hb2

/-- C6 counterexample: with three collected strengths `[2, 2, 1]` the
proportions `p1 = −1/3 ≤ p2 = 0` give thresholds `1` and `2`: the cutoff
`int(−1/3·3) = −1` wraps to the weakest strength, so
`threshold(M, p1, S) ≥ threshold(M, p2, S)` fails. -/
theorem threshold_monotone_counterexample :
    (-1/3 : ℚ) ≤ 0 ∧
    calculate_connectivity_threshold [[0, 1, 2], [1, 0, 2], [2, 2, 0]]
      (-1/3) ["A", "B", "C"] = some 1 ∧
    calculate_connectivity_threshold [[0, 1, 2], [1, 0, 2], [2, 2, 0]]
      0 ["A", "B", "C"] = some 2 ∧
    ¬((2:ℚ) ≤ 1) := by
  refine ⟨by norm_num, ?_, ?_, by norm_num⟩
  · with_unfolding_all decide
  · with_unfolding_all decide

/-- C6 witness: monotonicity at the concrete proportions `0 ≤ 1/2` on the
same matrix — both calls return a value and the values are ordered. -/
theorem threshold_monotone_witness :
    calculate_connectivity_threshold [[0, 1, 2], [1, 0, 2], [2, 2, 0]]
      0 ["A", "B", "C"] = some 2 ∧
    calculate_connectivity_threshold [[0, 1, 2], [1, 0, 2], [2, 2, 0]]
      (1/2) ["A", "B", "C"] = some 2 ∧
    (2:ℚ) ≤ 2 :=
  ⟨by with_unfolding_all decide, by with_unfolding_all decide,
   threshold_monotone [[0, 1, 2], [1, 0, 2], [2, 2, 0]] ["A", "B", "C"]
     0 (1/2) 2 2 (by norm_num) (by norm_num)
     (by with_unfolding_all decide) (by with_unfolding_all decide)⟩

lemma analyze_eq (con : NDArray) (n : Nat) (ch : List String)
    (f : NDArray → Nat → Option (List ℚ)) :
    analyze_hemisphere_epileptogenic_zone con n ch f =
      (f con n).bind (fun mv =>
      (traverseOpt (fun i => mv[i]?) (hemiIdx ch left_hemisphere)).bind (fun lv =>
      (traverseOpt (fun i => mv[i]?) (hemiIdx ch right_hemisphere)).bind (fun rv =>
      (traverseOpt (fun i => mv[i]?) (hemiIdx ch midline)).bind (fun dv =>
      (pyArgmax mv).bind (fun mi =>
      (ch[mi]?).bind (fun mac =>
      some {
        dominant_hemisphere := (dominanceDecision (groupMean lv) (groupMean rv)).1
        dominance_ratio := (dominanceDecision (groupMean lv) (groupMean rv)).2
        left_mean := groupMean lv
        right_mean := groupMean rv
        midline_mean := groupMean dv
        most_active_channel := mac
        most_active_hemisphere := mostActiveHemi mac
        left_channels := (hemiIdx ch left_hemisphere).map (fun i => ch.getD i "")
        right_channels := (hemiIdx ch right_hemisphere).map (fun i => ch.getD i "")
        midline_channels := (hemiIdx ch midline).map (fun i => ch.getD i "")
        metric_values := mv })))))) := rfl

lemma analyze_some_elim {con : NDArray} {n : Nat} {ch : List String}
    {f : NDArray → Nat → Option (List ℚ)} {r : HemisphereAnalysis}
    (h : analyze_hemisphere_epileptogenic_zone con n ch f = some r) :
    ∃ (mv lv rv dv : List ℚ) (mac : String),
      r = { dominant_hemisphere := (dominanceDecision (groupMean lv) (groupMean rv)).1
            dominance_ratio := (dominanceDecision (groupMean lv) (groupMean rv)).2
            left_mean := groupMean lv
            right_mean := groupMean rv
            midline_mean := groupMean dv
            most_active_channel := mac
            most_active_hemisphere := mostActiveHemi mac
            left_channels := (hemiIdx ch left_hemisphere).map (fun i => ch.getD i "")
            right_channels := (hemiIdx ch right_hemisphere).map (fun i => ch.getD i "")
            midline_channels := (hemiIdx ch midline).map (fun i => ch.getD i "")
            metric_values := mv } := by
  rw [analyze_eq] at h
  cases hmv : f con n with
  | none => rw [hmv] at h; exact absurd h (by simp)
  | some mv =>
    rw [hmv, Option.some_bind] at h
    cases hlv : traverseOpt (fun i => mv[i]?) (hemiIdx ch left_hemisphere) with
    | none => rw [hlv] at h; exact absurd h (by simp)
    | some lv =>
      rw [hlv, Option.some_bind] at h
      cases hrv : traverseOpt (fun i => mv[i]?) (hemiIdx ch right_hemisphere) with
      | none => rw [hrv] at h; exact absurd h (by simp)
      | some rv =>
        rw [hrv, Option.some_bind] at h
        cases hdv : traverseOpt (fun i => mv[i]?) (hemiIdx ch midline) with
        | none => rw [hdv] at h; exact absurd h (by simp)
        | some dv =>
          rw [hdv, Option.some_bind] at h
          cases hmi : pyArgmax mv with
          | none => rw [hmi] at h; exact absurd h (by simp)
          | some mi =>
            rw [hmi, Option.some_bind] at h
            cases hmac : ch[mi]? with
            | none => rw [hmac] at h; exact absurd h (by simp)
            | some mac =>
              rw [hmac, Option.some_bind] at h
              injection h with hrec
              exact ⟨mv, lv, rv, dv, mac, hrec.symm⟩

/-- C7: the dominance decision — strictly greater left mean gives the Left
label with ratio `left/right` when the right mean is positive and `np.inf`
otherwise; symmetrically for the right; equal means give Bilateral with
ratio `1.0`, whatever the metric scale. -/
theorem hemisphere_dominance_decision :
    ∀ (con : NDArray) (n : Nat) (ch : List String)
      (f : NDArray → Nat → Option (List ℚ)) (r : HemisphereAnalysis),
      analyze_hemisphere_epileptogenic_zone con n ch f = some r →
      (r.right_mean < r.left_mean →
        r.dominant_hemisphere = "Left" ∧
        r.dominance_ratio =
          (if 0 < r.right_mean then PyRatio.val (r.left_mean / r.right_mean)
           else PyRatio.inf)) ∧
      (r.left_mean < r.right_mean →
        r.dominant_hemisphere = "Right" ∧
        r.dominance_ratio =
          (if 0 < r.left_mean then PyRatio.val (r.right_mean / r.left_mean)
           else PyRatio.inf)) ∧
      (r.left_mean = r.right_mean →
        r.dominant_hemisphere = "Bilateral" ∧
        r.dominance_ratio = PyRatio.val 1) := by
  intro con n ch f r h
  obtain ⟨mv, lv, rv, dv, mac, rfl⟩ := analyze_some_elim h
  dsimp only
  refine ⟨?_, ?_, ?_⟩
  · intro hgt
    unfold dominanceDecision
    rw [if_pos hgt]
    exact ⟨rfl, rfl⟩
  · intro hlt
    unfold dominanceDecision
    rw [if_neg (lt_asymm hlt), if_pos hlt]
    exact ⟨rfl, rfl⟩
  · intro heq
    unfold dominanceDecision
    rw [if_neg (by rw [heq]; exact lt_irrefl _),
      if_neg (by rw [heq]; exact lt_irrefl _)]
    exact ⟨rfl, rfl⟩

/-- C7 witness: the decision at a concrete input whose left mean is `3` and
right mean is `1`. -/
theorem hemisphere_dominance_decision_witness :
    ((1:ℚ) < 3 →
      "Left" = "Left" ∧
      PyRatio.val 3 =
        (if (0:ℚ) < 1 then PyRatio.val ((3:ℚ) / 1) else PyRatio.inf)) ∧
    ((3:ℚ) < 1 →
      "Left" = "Right" ∧
      PyRatio.val 3 =
        (if (0:ℚ) < 3 then PyRatio.val ((1:ℚ) / 3) else PyRatio.inf)) ∧
    ((3:ℚ) = 1 →
      "Left" = "Bilateral" ∧ PyRatio.val 3 = PyRatio.val 1) :=
  hemisphere_dominance_decision (NDArray.two [[0]]) 2 ["F3", "F4"]
    sampleMetric sampleAnalysis (by with_unfolding_all decide)

lemma multiband_eq (cr : List (String × BandData))
    (f : NDArray → Nat → Option (List ℚ)) :
    analyze_multiband_hemisphere_epileptogenic_zone cr f =
      ((cr.head?).map (fun p => p.2)).bind (fun fb =>
      (traverseOpt (fun p =>
        (analyze_hemisphere_epileptogenic_zone (squeeze p.2.connectivity)
            fb.ch_names.length fb.ch_names f).map
          (fun a => (p.1, a))) cr).bind (fun results =>
      (dictMaxByValue (tally (results.map (fun p => p.2.most_active_channel)))).bind
        (fun mfc =>
      some {
        band_results := results
        overall_dominance := overallFrom
          ((results.map (fun p => p.2.dominant_hemisphere)).count "Left")
          ((results.map (fun p => p.2.dominant_hemisphere)).count "Right")
        left_count := (results.map (fun p => p.2.dominant_hemisphere)).count "Left"
        right_count := (results.map (fun p => p.2.dominant_hemisphere)).count "Right"
        bilateral_count :=
          (results.map (fun p => p.2.dominant_hemisphere)).count "Bilateral"
        total_bands := cr.length
        most_frequent_active_channel := mfc
        channel_frequency := tally (results.map (fun p => p.2.most_active_channel))
        average_dominance_ratio :=
          if (results.filterMap bandRatio).isEmpty then 1
          else listMean ((results.filterMap bandRatio).map (fun p => p.2))
        band_specific_ratios := results.filterMap bandRatio }))) := rfl

lemma multiband_some_elim {cr : List (String × BandData)}
    {f : NDArray → Nat → Option (List ℚ)} {s : MultibandSummary}
    (h : analyze_multiband_hemisphere_epileptogenic_zone cr f = some s) :
    ∃ (fb : BandData) (results : List (String × HemisphereAnalysis))
      (mfc : String),
      (cr.head?).map (fun p => p.2) = some fb ∧
      traverseOpt (fun p =>
        (analyze_hemisphere_epileptogenic_zone (squeeze p.2.connectivity)
            fb.ch_names.length fb.ch_names f).map
          (fun a => (p.1, a))) cr = some results ∧
      s = {
        band_results := results
        overall_dominance := overallFrom
          ((results.map (fun p => p.2.dominant_hemisphere)).count "Left")
          ((results.map (fun p => p.2.dominant_hemisphere)).count "Right")
        left_count := (results.map (fun p => p.2.dominant_hemisphere)).count "Left"
        right_count := (results.map (fun p => p.2.dominant_hemisphere)).count "Right"
        bilateral_count :=
          (results.map (fun p => p.2.dominant_hemisphere)).count "Bilateral"
        total_bands := cr.length
        most_frequent_active_channel := mfc
        channel_frequency := tally (results.map (fun p => p.2.most_active_channel))
        average_dominance_ratio :=
          if (results.filterMap bandRatio).isEmpty then 1
          else listMean ((results.filterMap bandRatio).map (fun p => p.2))
        band_specific_ratios := results.filterMap bandRatio } := by
  rw [multiband_eq] at h
  cases hfb : (cr.head?).map (fun p => p.2) with
  | none => rw [hfb] at h; exact absurd h (by simp)
  | some fb =>
    rw [hfb, Option.some_bind] at h
    cases hres : traverseOpt (fun p =>
        (analyze_hemisphere_epileptogenic_zone (squeeze p.2.connectivity)
            fb.ch_names.length fb.ch_names f).map
          (fun a => (p.1, a))) cr with
    | none => rw [hres] at h; exact absurd h (by simp)
    | some results =>
      rw [hres, Option.some_bind] at h
      cases hmfc : dictMaxByValue
          (tally (results.map (fun p => p.2.most_active_channel))) with
      | none => rw [hmfc] at h; exact absurd h (by simp)
      | some mfc =>
        rw [hmfc, Option.some_bind] at h
        injection h with hrec
        exact ⟨fb, results, mfc, rfl, hres, hrec.symm⟩

lemma traverseOpt_cons {α β : Type} (g : α → Option β) (x : α) (xs : List α) :
    traverseOpt g (x :: xs) =
      (g x).bind (fun y =>
        (traverseOpt g xs).bind (fun ys => some (y :: ys))) := rfl

lemma traverseOpt_length {α β : Type} (g : α → Option β) :
    ∀ (l : List α) (res : List β), traverseOpt g l = some res →
      res.length = l.length := by
  intro l
  induction l with
  | nil =>
    intro res h
    injection h with he
    rw [← he]
    rfl
  | cons x xs ih =>
    intro res h
    rw [traverseOpt_cons] at h
    cases hg : g x with
    | none => rw [hg] at h; exact absurd h (by simp)
    | some y =>
      rw [hg, Option.some_bind] at h
      cases hys : traverseOpt g xs with
      | none => rw [hys] at h; exact absurd h (by simp)
      | some ys =>
        rw [hys, Option.some_bind] at h
        injection h with he
        rw [← he, List.length_cons, List.length_cons, ih ys hys]

lemma traverseOpt_mem {α β : Type} (g : α → Option β) :
    ∀ (l : List α) (res : List β), traverseOpt g l = some res →
      ∀ y ∈ res, ∃ x ∈ l, g x = some y := by
  intro l
  induction l with
  | nil =>
    intro res h y hy
    injection h with he
    rw [← he] at hy
    simp at hy
  | cons x xs ih =>
    intro res h y hy
    rw [traverseOpt_cons] at h
    cases hg : g x with
    | none => rw [hg] at h; exact absurd h (by simp)
    | some z =>
      rw [hg, Option.some_bind] at h
      cases hys : traverseOpt g xs with
      | none => rw [hys] at h; exact absurd h (by simp)
      | some ys =>
        rw [hys, Option.some_bind] at h
        injection h with he
        rw [← he] at hy
        rcases List.mem_cons.mp hy with rfl | hmem
        · exact ⟨x, List.mem_cons_self _ _, hg⟩
        · obtain ⟨w, hw, hgw⟩ := ih ys hys y hmem
          exact ⟨w, List.mem_cons_of_mem _ hw, hgw⟩

lemma dominance_fst (lm rm : ℚ) :
    (dominanceDecision lm rm).1 = "Left" ∨
    (dominanceDecision lm rm).1 = "Right" ∨
    (dominanceDecision lm rm).1 = "Bilateral" := by
  unfold dominanceDecision
  split_ifs <;> simp

lemma count_three (l : List String)
    (h : ∀ x ∈ l, x = "Left" ∨ x = "Right" ∨ x = "Bilateral") :
    l.count "Left" + l.count "Right" + l.count "Bilateral" = l.length := by
  induction l with
  | nil => rfl
  | cons x xs ih =>
    have ih2 := ih (fun y hy => h y (List.mem_cons_of_mem _ hy))
    rcases h x (List.mem_cons_self _ _) with rfl | rfl | rfl <;>
      simp [List.count_cons] <;> omega

/-- C8: the average dominance ratio in the multiband summary is the
arithmetic mean of the per-band ratios that are finite (not `np.inf`), and
`1.0` when every band's ratio is `np.inf`. -/
theorem multiband_average_ratio :
    ∀ (cr : List (String × BandData)) (f : NDArray → Nat → Option (List ℚ))
      (s : MultibandSummary),
      (cr.map Prod.fst).Nodup →
      analyze_multiband_hemisphere_epileptogenic_zone cr f = some s →
      s.average_dominance_ratio =
        (if s.band_results.filterMap bandRatio = [] then 1
         else listMean ((s.band_results.filterMap bandRatio).map (fun p => p.2))) := by
  intro cr f s _ h
  obtain ⟨fb, results, mfc, hfb, hres, rfl⟩ := multiband_some_elim h
  dsimp only
  by_cases hnil : results.filterMap bandRatio = []
  · rw [if_pos (List.isEmpty_iff.mpr hnil), if_pos hnil]
  · rw [if_neg (fun hc => hnil (List.isEmpty_iff.mp hc)), if_neg hnil]

/-- C8 witness: a one-band input with finite ratio `3` has average dominance
ratio `3`, the mean of its finite per-band ratios. -/
theorem multiband_average_ratio_witness :
    (3:ℚ) =
      (if ([("alpha", (3:ℚ))] : List (String × ℚ)) = [] then 1
       else listMean (([("alpha", (3:ℚ))] : List (String × ℚ)).map (fun p => p.2))) :=
  multiband_average_ratio sampleBands sampleMetric sampleSummary
    (by decide) (by with_unfolding_all decide)

/-- C9: the dominant-hemisphere label is always one of Left, Right or
Bilateral, and in the multiband summary the three dominance counts add up
to the number of bands analyzed. -/
theorem hemisphere_label_and_counts :
    (∀ (con : NDArray) (n : Nat) (ch : List String)
       (f : NDArray → Nat → Option (List ℚ)) (r : HemisphereAnalysis),
       analyze_hemisphere_epileptogenic_zone con n ch f = some r →
       r.dominant_hemisphere = "Left" ∨ r.dominant_hemisphere = "Right" ∨
         r.dominant_hemisphere = "Bilateral") ∧
    (∀ (cr : List (String × BandData)) (f : NDArray → Nat → Option (List ℚ))
       (s : MultibandSummary),
       (cr.map Prod.fst).Nodup →
       analyze_multiband_hemisphere_epileptogenic_zone cr f = some s →
       s.left_count + s.right_count + s.bilateral_count = s.total_bands ∧
       s.total_bands = cr.length) := by
  constructor
  · intro con n ch f r h
    obtain ⟨mv, lv, rv, dv, mac, rfl⟩ := analyze_some_elim h
    exact dominance_fst _ _
  · intro cr f s _ h
    obtain ⟨fb, results, mfc, hfb, hres, rfl⟩ := multiband_some_elim h
    dsimp only
    constructor
    · have hall : ∀ x ∈ results.map (fun p => p.2.dominant_hemisphere),
          x = "Left" ∨ x = "Right" ∨ x = "Bilateral" := by
        intro x hx
        obtain ⟨p, hp, rfl⟩ := List.mem_map.mp hx
        obtain ⟨q, hq, hgq⟩ := traverseOpt_mem _ cr results hres p hp
        cases han : analyze_hemisphere_epileptogenic_zone
            (squeeze q.2.connectivity) fb.ch_names.length fb.ch_names f with
        | none => rw [han] at hgq; exact absurd hgq (by simp)
        | some a =>
          rw [han, Option.map_some'] at hgq
          injection hgq with hpq
          obtain ⟨mv, lv, rv, dv, mac, ha⟩ := analyze_some_elim han
          rw [← hpq]
          dsimp only
          rw [ha]
          exact dominance_fst _ _
      have hcount := count_three _ hall
      rw [List.length_map, traverseOpt_length _ cr results hres] at hcount
      exact hcount
    · rfl

/-- C9 witness: the label and count identities at the concrete one-band
input. -/
theorem hemisphere_label_and_counts_witness :
    ("Left" = "Left" ∨ "Left" = "Right" ∨ "Left" = "Bilateral") ∧
    (1 + 0 + 0 = 1 ∧ 1 = sampleBands.length) :=
  ⟨hemisphere_label_and_counts.1 (NDArray.two [[0]]) 2 ["F3", "F4"]
      sampleMetric sampleAnalysis (by with_unfolding_all decide),
   hemisphere_label_and_counts.2 sampleBands sampleMetric sampleSummary
      (by decide) (by with_unfolding_all decide)⟩

/-- C10: with an empty channel list the hemisphere analysis never returns a
result — whatever the metric function yields, the most-active-channel step
fails (an empty metric vector makes `np.argmax` raise; a nonempty one makes
the `ch_names[max_idx]` lookup raise), so `N ≥ 1` is an undocumented
precondition. -/
theorem analyze_requires_nonempty_channels :
    ∀ (con : NDArray) (n : Nat) (f : NDArray → Nat → Option (List ℚ)),
      analyze_hemisphere_epileptogenic_zone con n ([] : List String) f = none := by
  intro con n f
  rw [analyze_eq]
  cases hmv : f con n with
  | none => rfl
  | some mv =>
    rw [Option.some_bind]
    rw [show traverseOpt (fun i => mv[i]?)
        (hemiIdx ([] : List String) left_hemisphere) = some ([] : List ℚ) from rfl,
      Option.some_bind]
    rw [show traverseOpt (fun i => mv[i]?)
        (hemiIdx ([] : List String) right_hemisphere) = some ([] : List ℚ) from rfl,
      Option.some_bind]
    rw [show traverseOpt (fun i => mv[i]?)
        (hemiIdx ([] : List String) midline) = some ([] : List ℚ) from rfl,
      Option.some_bind]
    cases hmi : pyArgmax mv with
    | none => rfl
    | some mi =>
      rw [Option.some_bind]
      have hnil : (([] : List String))[mi]? = none := by simp
      rw [hnil]
      rfl

lemma find?_range'_least (p : Nat → Bool) :
    ∀ (len s k : Nat), (List.range' s len).find? p = some k →
      p k = true ∧ s ≤ k ∧ ∀ j, s ≤ j → j < k → p j = false := by
  intro len
  induction len with
  | zero => intro s k h; simp at h
  | succ n ih =>
    intro s k h
    rw [List.range'_succ] at h
    by_cases hps : p s = true
    · rw [List.find?_cons_of_pos _ hps] at h
      injection h with he
      subst he
      exact ⟨hps, le_refl _, fun j h1 h2 => absurd (lt_of_le_of_lt h1 h2) (lt_irrefl _)⟩
    · rw [List.find?_cons_of_neg _ hps] at h
      obtain ⟨h1, h2, h3⟩ := ih (s + 1) k h
      refine ⟨h1, by omega, fun j hj1 hj2 => ?_⟩
      rcases Nat.eq_or_lt_of_le hj1 with rfl | hlt
      · exact Bool.eq_false_iff.mpr hps
      · exact h3 j (by omega) hj2

lemma find?_range_least (p : Nat → Bool) (N k : Nat)
    (h : (List.range N).find? p = some k) :
    p k = true ∧ ∀ j, j < k → p j = false := by
  rw [List.range_eq_range'] at h
  obtain ⟨h1, _, h3⟩ := find?_range'_least p N 0 k h
  exact ⟨h1, fun j hj => h3 j (Nat.zero_le j) hj⟩

lemma pickOne_perm {α : Type} :
    ∀ (l : List α) (b : α) (rest : List α),
      (b, rest) ∈ pickOne l → l.Perm (b :: rest) := by
  intro l
  induction l with
  | nil => intro b rest h; simp [pickOne] at h
  | cons a t ih =>
    intro b rest h
    rw [pickOne] at h
    rcases List.mem_cons.mp h with heq | hmem
    · injection heq with h1 h2
      subst h1
      subst h2
      exact List.Perm.refl _
    · obtain ⟨⟨b2, rest2⟩, hmem2, heq⟩ := List.mem_map.mp hmem
      dsimp only at heq
      injection heq with h1 h2
      subst h1
      subst h2
      exact (List.Perm.cons a (ih b2 rest2 hmem2)).trans
        (List.Perm.swap b2 a rest2)

lemma choose2_perm {α : Type} :
    ∀ (l : List α) (a b : α) (rest : List α),
      ((a, b), rest) ∈ choose2 l → l.Perm (a :: b :: rest) := by
  intro l
  induction l with
  | nil => intro a b rest h; simp [choose2] at h
  | cons x t ih =>
    intro a b rest h
    rw [choose2] at h
    rcases List.mem_append.mp h with hmem | hmem
    · obtain ⟨⟨b2, rest2⟩, hmem2, heq⟩ := List.mem_map.mp hmem
      dsimp only at heq
      injection heq with hpair hrest
      injection hpair with h1 h2
      subst h1
      subst h2
      subst hrest
      exact List.Perm.cons x (pickOne_perm t b2 rest2 hmem2)
    · obtain ⟨⟨⟨a2, b2⟩, rest2⟩, hmem2, heq⟩ := List.mem_map.mp hmem
      dsimp only at heq
      injection heq with hpair hrest
      injection hpair with h1 h2
      subst h1
      subst h2
      subst hrest
      have ht := ih a2 b2 rest2 hmem2
      exact (List.Perm.cons x ht).trans
        ((List.Perm.swap a2 x (b2 :: rest2)).trans
          (List.Perm.cons a2 (List.Perm.swap b2 x rest2)))

lemma candidateMerges_partition (p q : List (List Nat)) (n : Nat)
    (hq : q ∈ candidateMerges p) (hp : IsPartitionOf p n) :
    IsPartitionOf q n := by
  obtain ⟨⟨⟨a, b⟩, rest⟩, hmem, hqe⟩ := List.mem_map.mp hq
  have hperm := choose2_perm p a b rest hmem
  unfold IsPartitionOf at hp ⊢
  rw [← hqe]
  have h1 : (((a ++ b) :: rest) : List (List Nat)).flatten =
      ((a :: b :: rest) : List (List Nat)).flatten := by
    simp [List.flatten_cons, List.append_assoc]
  rw [h1]
  exact (hperm.flatten.symm).trans hp

lemma bestByAux_mem (score : List (List Nat) → ℚ) :
    ∀ (rest : List (List (List Nat))) (best : List (List Nat)) (bestS : ℚ),
      bestByAux score best bestS rest = best ∨
        bestByAux score best bestS rest ∈ rest := by
  intro rest
  induction rest with
  | nil => intro best bestS; exact Or.inl rfl
  | cons c t ih =>
    intro best bestS
    rw [bestByAux]
    split_ifs with hlt
    · rcases ih c (score c) with h | h
      · rw [h]
        exact Or.inr (List.mem_cons_self _ _)
      · exact Or.inr (List.mem_cons_of_mem _ h)
    · rcases ih best bestS with h | h
      · exact Or.inl h
      · exact Or.inr (List.mem_cons_of_mem _ h)

lemma bestBy_mem (score : List (List Nat) → ℚ)
    (cands : List (List (List Nat))) (c : List (List Nat))
    (h : bestBy score cands = some c) : c ∈ cands := by
  cases cands with
  | nil => simp [bestBy] at h
  | cons d rest =>
    rw [bestBy] at h
    injection h with he
    rcases bestByAux_mem score rest d (score d) with h2 | h2
    · rw [← he, h2]
      exact List.mem_cons_self _ _
    · rw [← he]
      exact List.mem_cons_of_mem _ h2

lemma greedyStep_some (m : Mat) (p q : List (List Nat))
    (h : greedyStep m p = some q) :
    q ∈ candidateMerges p ∧ modularityScore m p < modularityScore m q := by
  unfold greedyStep at h
  cases hb : bestBy (modularityScore m) (candidateMerges p) with
  | none =>
    rw [hb] at h
    simp at h
  | some c =>
    rw [hb] at h
    dsimp only at h
    split_ifs at h with hlt
    · injection h with he
      subst he
      exact ⟨bestBy_mem _ _ _ hb, hlt⟩

lemma greedyLoop_inv (m : Mat) :
    ∀ (fuel : Nat) (p : List (List Nat)) (n : Nat),
      IsPartitionOf p n →
      IsPartitionOf (greedyLoop m fuel p) n ∧
      modularityScore m p ≤ modularityScore m (greedyLoop m fuel p) := by
  intro fuel
  induction fuel with
  | zero => intro p n hp; exact ⟨hp, le_refl _⟩
  | succ f ih =>
    intro p n hp
    cases hs : greedyStep m p with
    | none =>
      simp only [greedyLoop, hs]
      exact ⟨hp, le_refl _⟩
    | some q =>
      simp only [greedyLoop, hs]
      obtain ⟨hqc, hlt⟩ := greedyStep_some m p q hs
      obtain ⟨h1, h2⟩ := ih q n (candidateMerges_partition p q n hqc hp)
      exact ⟨h1, le_trans (le_of_lt hlt) h2⟩

lemma flatten_map_singleton {α : Type} :
    ∀ (l : List α), (l.map (fun a => ([a] : List α))).flatten = l := by
  intro l
  induction l with
  | nil => rfl
  | cons x xs ih => simp [List.flatten_cons, ih]

lemma singletons_partition (n : Nat) : IsPartitionOf (singletons n) n := by
  unfold IsPartitionOf singletons
  rw [flatten_map_singleton]

/-- C2 (spec-modelled): the two global metrics, one scalar each — global
efficiency is the mean over all ordered node pairs of the inverse
shortest-path length (`spDist` really is shortest: it is reachable at its
value and at no smaller walk length), and the modularity metric is the
modularity score of the community partition found by the greedy
modularity-maximizing agglomeration, which genuinely partitions the nodes
and never scores below the partition it started from. -/
theorem global_metrics_spec :
    ∀ (m : Mat),
      (global_efficiency m =
        (if m.length ≤ 1 then 0
         else ((distinctPairs m.length).map (fun p => invDistQ m p.1 p.2)).sum /
           (m.length * (m.length - 1) : ℚ))) ∧
      (∀ u v k, spDist m u v = some k →
        reachInB m u v k = true ∧ ∀ j, j < k → reachInB m u v j = false) ∧
      (modularity_metric m =
        modularityScore m (greedy_modularity_communities m)) ∧
      IsPartitionOf (greedy_modularity_communities m) m.length ∧
      modularityScore m (singletons m.length) ≤ modularity_metric m := by
  intro m
  refine ⟨rfl, ?_, rfl, ?_, ?_⟩
  · intro u v k h
    exact find?_range_least _ _ _ h
  · exact (greedyLoop_inv m m.length (singletons m.length) m.length
      (singletons_partition m.length)).1
  · exact (greedyLoop_inv m m.length (singletons m.length) m.length
      (singletons_partition m.length)).2

/-- C2 witness: the metrics on the concrete 3-node path graph
`0 — 1 — 2`: the shortest path from `0` to `2` has length `2` (and none
shorter), and the greedy communities partition the three nodes with a
score at least that of the singleton partition. -/
theorem global_metrics_spec_witness :
    spDist [[0, 1, 0], [1, 0, 1], [0, 1, 0]] 0 2 = some 2 ∧
    (reachInB [[0, 1, 0], [1, 0, 1], [0, 1, 0]] 0 2 2 = true ∧
      ∀ j, j < 2 → reachInB [[0, 1, 0], [1, 0, 1], [0, 1, 0]] 0 2 j = false) ∧
    IsPartitionOf
      (greedy_modularity_communities [[0, 1, 0], [1, 0, 1], [0, 1, 0]]) 3 ∧
    modularityScore [[0, 1, 0], [1, 0, 1], [0, 1, 0]] (singletons 3) ≤
      modularity_metric [[0, 1, 0], [1, 0, 1], [0, 1, 0]] :=
  ⟨by decide,
   (global_metrics_spec [[0, 1, 0], [1, 0, 1], [0, 1, 0]]).2.1 0 2 2 (by decide),
   (global_metrics_spec [[0, 1, 0], [1, 0, 1], [0, 1, 0]]).2.2.2.1,
   (global_metrics_spec [[0, 1, 0], [1, 0, 1], [0, 1, 0]]).2.2.2.2⟩

end Graphez
